import Mathlib

/-!
Verification development for the structured-output extractor of the GEO
repository (`src/services/geminiService.ts`, function `solveMathProblem`,
extraction part, plus the streaming accumulation loop and the result type
`MathSolution` from the types module).

Text is modelled as `List Char`.  The extractor is embedded as pure
functions mirroring the source line by line:

* `anchorIndex`     — the regex search for the value-shaped anchor
                      `"problemSummary"\s*:\s*"` (first match index);
* `backScan`        — the backward brace-balance walk (lines 166-178);
* `fwdScan`         — the forward brace-balance walk (lines 181-196);
* `strategy1` .. `strategy4` — the four candidate strategies;
* `selectCandidate` — the short-circuiting strategy chain;
* `cleanup`         — trim plus the three code-fence replace calls;
* `jsonParse`       — a model of `JSON.parse` (fuel-based recursive
                      descent over the JSON grammar; string and number
                      tokens are kept as their validated raw lexemes,
                      which is faithful for parse success/failure);
* `solveExtract`    — candidate selection followed by parse, returning
                      either the parsed value or one of the two error
                      kinds thrown by the source (`notFound` for
                      "Could not extract JSON solution...", `parseFailure`
                      for "Could not parse JSON solution...");
* `streamRun`       — the chunk accumulation loop with the `onLog`
                      progress callback (lines 147-154); the second
                      component records the argument of every callback
                      invocation, in order.
-/

/-- JS regex `\s` / `String.prototype.trim` whitespace, restricted to the
ASCII part actually exercised by the source's inputs. -/
def jsWs (c : Char) : Bool :=
  c = ' ' || c = '\t' || c = '\n' || c = '\r' || c = '\x0b' || c = '\x0c'

/-- JSON (RFC 8259) insignificant whitespace, as accepted by `JSON.parse`. -/
def jsonWs (c : Char) : Bool :=
  c = ' ' || c = '\t' || c = '\n' || c = '\r'

/-- Contribution of one character to a forward brace balance. -/
def braceDelta (c : Char) : Int :=
  if c = '{' then 1 else if c = '}' then -1 else 0

/-- Forward brace balance of a list. -/
def braceBal : List Char → Int
  | [] => 0
  | c :: r => braceDelta c + braceBal r

/-- Count of `'}'` minus count of `'{'` (the balance accumulated by the
backward scan over a scanned segment). -/
def dCount : List Char → Int
  | [] => 0
  | c :: r => (if c = '}' then 1 else if c = '{' then -1 else 0) + dCount r

/-- Backward walk of lines 166-178 of the source: the input list is the
reversed prefix `fullText[0..i]`, `pos` the index of its head inside the
full text, `bal` the running balance.  `'}'` increments the balance; a
`'{'` at balance zero is the result; any other `'{'` decrements. -/
def backScanAux : List Char → Nat → Nat → Option Nat
  | [], _, _ => none
  | c :: rest, pos, bal =>
    if c = '}' then backScanAux rest (pos - 1) (bal + 1)
    else if c = '{' then
      (if bal = 0 then some pos else backScanAux rest (pos - 1) (bal - 1))
    else backScanAux rest (pos - 1) bal

/-- `openBraceIdx` computation: walk backwards from index `i` (inclusive). -/
def backScan (l : List Char) (i : Nat) : Option Nat :=
  backScanAux ((l.take (i + 1)).reverse) i 0

/-- Forward walk of lines 181-196 of the source: `'{'` increments the
balance, `'}'` decrements it, and the position where it returns to zero
on a `'}'` is the result. -/
def fwdScanAux : List Char → Nat → Int → Option Nat
  | [], _, _ => none
  | c :: rest, pos, bal =>
    let b : Int := if c = '{' then bal + 1 else bal
    if c = '}' then
      (if b - 1 = 0 then some pos else fwdScanAux rest (pos + 1) (b - 1))
    else fwdScanAux rest (pos + 1) b

/-- `closeBraceIdx` computation: walk forwards from index `start`. -/
def fwdScan (l : List Char) (start : Nat) : Option Nat :=
  fwdScanAux (l.drop start) start 0

/-- The anchor key literal `"problemSummary"`, quotes included. -/
def anchorPat : List Char := ("\"problemSummary\"" : String).toList

/-- Does the regex `"problemSummary"\s*:\s*"` match at the head of `l`? -/
def matchesAnchorAt (l : List Char) : Bool :=
  if anchorPat.isPrefixOf l then
    match (l.drop anchorPat.length).dropWhile jsWs with
    | ':' :: r => ((r.dropWhile jsWs).head? == some '"')
    | _ => false
  else false

/-- Index of the first match of the anchor regex (`fullText.match(...)`,
no global flag: first match only). -/
def anchorIndex : List Char → Option Nat
  | [] => none
  | c :: t =>
    if matchesAnchorAt (c :: t) then some 0 else (anchorIndex t).map (· + 1)

/-- Does the decoy shape `"problemSummary"\s*:\s*\x7b` (key followed by an
opening brace, i.e. a schema/type declaration) match at the head of `l`? -/
def matchesDecoyAt (l : List Char) : Bool :=
  if anchorPat.isPrefixOf l then
    match (l.drop anchorPat.length).dropWhile jsWs with
    | ':' :: r => ((r.dropWhile jsWs).head? == some '{')
    | _ => false
  else false

/-- Index of the first decoy-shaped occurrence of the key. -/
def decoyIndex : List Char → Option Nat
  | [] => none
  | c :: t =>
    if matchesDecoyAt (c :: t) then some 0 else (decoyIndex t).map (· + 1)

/-- Strategy 1 (lines 160-199): anchor search, backward walk to the
enclosing `'{'`, forward walk to the matching `'}'`, and the substring
between them.  Any failure leaves the candidate empty. -/
def strategy1 (l : List Char) : Option (List Char) :=
  match anchorIndex l with
  | none => none
  | some i =>
    match backScan l i with
    | none => none
    | some o =>
      match fwdScan l o with
      | none => none
      | some cl => some ((l.drop o).take (cl + 1 - o))

/-- First index at which `pat` occurs as a contiguous sublist of `l`. -/
def findSub (pat : List Char) : List Char → Option Nat
  | [] => if pat.isPrefixOf ([] : List Char) then some 0 else none
  | c :: t =>
    if pat.isPrefixOf (c :: t) then some 0 else (findSub pat t).map (· + 1)

/-- Does `pat` occur as a contiguous sublist of `l`? -/
def containsSub (pat l : List Char) : Bool := (findSub pat l).isSome

/-- ASCII-lowering used to model the `i` regex flag. -/
def lowerL (l : List Char) : List Char := l.map Char.toLower

/-- The opening data tag. -/
def tagOpen : List Char := ("<json>" : String).toList

/-- The closing data tag. -/
def tagClose : List Char := ("</json>" : String).toList

/-- Strategy 2 (lines 202-207): first case-insensitive `<json>` tag, lazily
matched up to the first subsequent `</json>`; the group must be non-empty
(`tagMatch[1]` is falsy on the empty string). -/
def strategy2 (l : List Char) : Option (List Char) :=
  match findSub tagOpen (lowerL l) with
  | none => none
  | some i =>
    let after := l.drop (i + tagOpen.length)
    match findSub tagClose (lowerL after) with
    | none => none
    | some j =>
      let content := after.take j
      if content = [] then none else some content

/-- The code-fence marker. -/
def fenceTicks : List Char := ("```" : String).toList

/-- The optional language hint consumed greedily by the fence regex. -/
def fenceJson : List Char := ("json" : String).toList

/-- One match of the fence regex: returns the captured group and the text
after the closing fence (where `matchAll` resumes). -/
def fenceSplit (l : List Char) : Option (List Char × List Char) :=
  match findSub fenceTicks l with
  | none => none
  | some i =>
    let afterOpen := l.drop (i + fenceTicks.length)
    let body :=
      if fenceJson.isPrefixOf afterOpen then afterOpen.drop fenceJson.length
      else afterOpen
    match findSub fenceTicks body with
    | none => none
    | some j => some (body.take j, body.drop (j + fenceTicks.length))

/-- Successive non-overlapping fence matches (`matchAll` semantics); the
fuel bound `l.length` is ample, each match consuming at least six chars. -/
def fencesAux : Nat → List Char → List (List Char)
  | 0, _ => []
  | n + 1, l =>
    match fenceSplit l with
    | none => []
    | some (g, rest) => g :: fencesAux n rest

/-- All fenced-block capture groups, in order. -/
def fences (l : List Char) : List (List Char) := fencesAux l.length l

/-- The bare anchor word searched for inside fenced blocks. -/
def anchorWord : List Char := ("problemSummary" : String).toList

/-- Strategy 3 (lines 210-218): the first fenced block whose content
contains the anchor word. -/
def strategy3 (l : List Char) : Option (List Char) :=
  (fences l).find? (fun g => containsSub anchorWord g)

/-- Index of the first occurrence of character `c`. -/
def firstIdxOf (c : Char) (l : List Char) : Option Nat := findSub [c] l

/-- Index of the last occurrence of character `c` (JS `lastIndexOf`). -/
def lastIdxOf (c : Char) (l : List Char) : Option Nat :=
  (findSub [c] l.reverse).map (fun i => l.length - 1 - i)

/-- Strategy 4 (lines 221-227): substring from the first `'{'` to the last
`'}'`; JS `String.prototype.substring` swaps its endpoints when given in
descending order, and an empty result is falsy. -/
def strategy4 (l : List Char) : Option (List Char) :=
  match firstIdxOf '{' l, lastIdxOf '}' l with
  | some s, some e =>
    let a := min s (e + 1)
    let b := max s (e + 1)
    let sub := (l.drop a).take (b - a)
    if sub = [] then none else some sub
  | _, _ => none

/-- The short-circuiting strategy chain: each `if (!jsonStr)` guard in the
source runs the next strategy only when all earlier ones left the
candidate empty. -/
def selectCandidate (l : List Char) : Option (List Char) :=
  match strategy1 l with
  | some c => some c
  | none =>
    match strategy2 l with
    | some c => some c
    | none =>
      match strategy3 l with
      | some c => some c
      | none => strategy4 l

/-- JS `trim` on both ends. -/
def trimList (l : List Char) : List Char :=
  ((l.dropWhile jsWs).reverse.dropWhile jsWs).reverse

/-- The leading fence marker removed by `replace(/^```json\s*/, '')`. -/
def fenceJsonTag : List Char := ("```json" : String).toList

/-- Lines 239-240 of the source: trim, strip a leading ```` ```json ````
marker with trailing whitespace, then a leading ```` ``` ```` marker with
trailing whitespace, then a trailing ```` ``` ```` marker with preceding
whitespace. -/
def cleanup (l : List Char) : List Char :=
  let t := trimList l
  let t1 :=
    if fenceJsonTag.isPrefixOf t then (t.drop fenceJsonTag.length).dropWhile jsWs
    else t
  let t2 :=
    if fenceTicks.isPrefixOf t1 then (t1.drop fenceTicks.length).dropWhile jsWs
    else t1
  let r := t2.reverse
  if fenceTicks.isPrefixOf r then ((r.drop fenceTicks.length).dropWhile jsWs).reverse
  else t2

/-- JSON documents as parsed by `JSON.parse`.  String and number payloads
keep the validated raw lexeme, which preserves parse success/failure
exactly; only escape decoding is elided. -/
inductive Json where
  | null : Json
  | bool : Bool → Json
  | num : List Char → Json
  | str : List Char → Json
  | arr : List Json → Json
  | obj : List (List Char × Json) → Json

/-- Hexadecimal digit test for `\u` escapes. -/
def isHexDigit (c : Char) : Bool :=
  c.isDigit || ('a' ≤ c && c ≤ 'f') || ('A' ≤ c && c ≤ 'F')

/-- JSON string body after the opening quote: returns the raw content and
the rest after the closing quote; rejects unescaped control characters and
malformed escapes. -/
def parseStringAux : List Char → Option (List Char × List Char)
  | [] => none
  | '"' :: rest => some ([], rest)
  | '\\' :: 'u' :: h1 :: h2 :: h3 :: h4 :: rest =>
    if isHexDigit h1 && isHexDigit h2 && isHexDigit h3 && isHexDigit h4 then
      (parseStringAux rest).map (fun p => ('\\' :: 'u' :: h1 :: h2 :: h3 :: h4 :: p.1, p.2))
    else none
  | '\\' :: e :: rest =>
    if e = '"' || e = '\\' || e = '/' || e = 'b' || e = 'f' || e = 'n' || e = 'r' || e = 't' then
      (parseStringAux rest).map (fun p => ('\\' :: e :: p.1, p.2))
    else none
  | c :: rest =>
    if c.val < 32 then none
    else (parseStringAux rest).map (fun p => (c :: p.1, p.2))

/-- Digit run splitter. -/
def takeDigits (l : List Char) : List Char × List Char :=
  (l.takeWhile Char.isDigit, l.dropWhile Char.isDigit)

/-- Optional JSON fraction part `(\.[0-9]+)?`. -/
def parseFrac (l : List Char) : Option (List Char × List Char) :=
  match l with
  | '.' :: r =>
    (match takeDigits r with
     | ([], _) => none
     | (ds, r2) => some ('.' :: ds, r2))
  | _ => some ([], l)

/-- Optional JSON exponent part `([eE][+-]?[0-9]+)?`. -/
def parseExp (l : List Char) : Option (List Char × List Char) :=
  match l with
  | e :: r =>
    if e = 'e' || e = 'E' then
      let (es, r2) := match r with
        | '+' :: r3 => ((['+'] : List Char), r3)
        | '-' :: r3 => ((['-'] : List Char), r3)
        | _ => (([] : List Char), r)
      match takeDigits r2 with
      | ([], _) => none
      | (ds, r4) => some (e :: es ++ ds, r4)
    else some ([], l)
  | [] => some ([], [])

/-- JSON number lexeme: `-? (0 | [1-9][0-9]*) (\.[0-9]+)? ([eE][+-]?[0-9]+)?`. -/
def parseNumber (l : List Char) : Option (List Char × List Char) :=
  let (sign, l1) := match l with
    | '-' :: r => ((['-'] : List Char), r)
    | _ => (([] : List Char), l)
  let ipOpt : Option (List Char × List Char) :=
    match l1 with
    | '0' :: r => some (['0'], r)
    | c :: r => if c.isDigit then some (takeDigits (c :: r)) else none
    | [] => none
  match ipOpt with
  | none => none
  | some (ip, r0) =>
    match parseFrac r0 with
    | none => none
    | some (fp, r1) =>
      match parseExp r1 with
      | none => none
      | some (ep, r2) => some (sign ++ ip ++ fp ++ ep, r2)

mutual

/-- A JSON value as accepted by `JSON.parse`: leading insignificant
whitespace, then a literal, string, number, object or array. -/
def parseVal : Nat → List Char → Option (Json × List Char)
  | 0, _ => none
  | n + 1, l =>
    match l.dropWhile jsonWs with
    | 'n' :: 'u' :: 'l' :: 'l' :: rest => some (.null, rest)
    | 't' :: 'r' :: 'u' :: 'e' :: rest => some (.bool true, rest)
    | 'f' :: 'a' :: 'l' :: 's' :: 'e' :: rest => some (.bool false, rest)
    | '"' :: rest => (parseStringAux rest).map (fun p => (.str p.1, p.2))
    | '{' :: rest =>
      (match rest.dropWhile jsonWs with
       | '}' :: r2 => some (.obj [], r2)
       | r1 => (parseMembers n r1).map (fun p => (.obj p.1, p.2)))
    | '[' :: rest =>
      (match rest.dropWhile jsonWs with
       | ']' :: r2 => some (.arr [], r2)
       | r1 => (parseElems n r1).map (fun p => (.arr p.1, p.2)))
    | other => (parseNumber other).map (fun p => (.num p.1, p.2))

/-- One or more `"key" : value` members, ending at the closing `'\x7d'`. -/
def parseMembers : Nat → List Char → Option (List (List Char × Json) × List Char)
  | 0, _ => none
  | n + 1, l =>
    match l with
    | '"' :: rest =>
      (match parseStringAux rest with
       | none => none
       | some (key, r1) =>
         match r1.dropWhile jsonWs with
         | ':' :: r2 =>
           (match parseVal n r2 with
            | none => none
            | some (v, r3) =>
              match r3.dropWhile jsonWs with
              | ',' :: r4 =>
                (match parseMembers n (r4.dropWhile jsonWs) with
                 | none => none
                 | some (ms, r5) => some ((key, v) :: ms, r5))
              | '}' :: r4 => some ([(key, v)], r4)
              | _ => none)
         | _ => none)
    | _ => none

/-- One or more array elements, ending at the closing `']'`. -/
def parseElems : Nat → List Char → Option (List Json × List Char)
  | 0, _ => none
  | n + 1, l =>
    match parseVal n l with
    | none => none
    | some (v, r1) =>
      match r1.dropWhile jsonWs with
      | ',' :: r2 =>
        (match parseElems n r2 with
         | none => none
         | some (vs, r3) => some (v :: vs, r3))
      | ']' :: r2 => some ([v], r2)
      | _ => none

end

/-- Model of `JSON.parse`: one complete JSON value with nothing but
whitespace after it.  The fuel bound is ample: every recursive level
consumes at least one character. -/
def jsonParse (l : List Char) : Option Json :=
  match parseVal (2 * l.length + 4) l with
  | some (v, rest) => if rest.dropWhile jsonWs = [] then some v else none
  | none => none

/-- The two error kinds thrown by the extraction part of the source:
`notFound` models `"Could not extract JSON solution from model response."`
and `parseFailure` models `"Could not parse JSON solution from model
response."`. -/
inductive ExtractError where
  | notFound : ExtractError
  | parseFailure : ExtractError
deriving DecidableEq

/-- The extraction pipeline of lines 158-245: select a candidate through
the strategy chain, clean it up, parse it; an empty selection throws the
extraction-not-found error, a failed parse throws the parse-failure
error. -/
def solveExtract (l : List Char) : Except ExtractError Json :=
  match selectCandidate l with
  | none => .error .notFound
  | some c =>
    match jsonParse (cleanup c) with
    | some v => .ok v
    | none => .error .parseFailure

/-- One iteration of the streaming loop (lines 147-154): a chunk with
falsy (empty) text neither extends the accumulator nor invokes `onLog`;
any other chunk is appended and the callback receives the new cumulative
text. -/
def streamStep (st : List Char × List (List Char)) (chunk : List Char) :
    List Char × List (List Char) :=
  if chunk = [] then st else (st.1 ++ chunk, st.2 ++ [st.1 ++ chunk])

/-- The whole streaming loop: returns the final accumulated text and the
ordered list of arguments passed to the progress callback. -/
def streamRun (chunks : List (List Char)) : List Char × List (List Char) :=
  chunks.foldl streamStep ([], [])

/-- Final accumulated text of the streaming loop. -/
def streamAcc (chunks : List (List Char)) : List Char := (streamRun chunks).1

/-- Arguments of the successive progress-callback invocations. -/
def streamLogs (chunks : List (List Char)) : List (List Char) := (streamRun chunks).2

/-- The end-to-end behaviour modelled: accumulate the stream, then run the
extraction pipeline on the final text. -/
def solveStream (chunks : List (List Char)) : Except ExtractError Json :=
  solveExtract (streamAcc chunks)

/-- Brace-well-nestedness of a span: starts with `'\x7b'`, total brace
balance zero, and every proper non-empty prefix keeps a positive balance.
A valid JSON object none of whose string literals contains a brace
character satisfies this. -/
def wellNestedB (l : List Char) : Bool :=
  (l.head? == some '{') && (braceBal l == 0) &&
  ((List.range l.length).all (fun i => i == 0 || decide (1 ≤ braceBal (l.take i))))

/-- Backward-scan condition on the reversed anchor prefix `m` of the
object: scanning `m` left to right from balance zero, no `'\x7b'` before
the final element sees balance zero, and the final element is a `'\x7b'`
seen at balance zero (so the backward walk stops exactly at the object's
opening brace). -/
def backCondB (m : List Char) : Bool :=
  (m.getLast? == some '{') && (dCount (m.take (m.length - 1)) == 0) &&
  ((List.range (m.length - 1)).all (fun i =>
    !(m.get? i == some '{') || decide (dCount (m.take i) ≠ 0)))

/-- Text containing no brace character at all. -/
def noBracesB (l : List Char) : Bool :=
  l.all (fun c => !(c == '{') && !(c == '}'))

/-- Last-wins field lookup, as JS property access on a `JSON.parse` result
with duplicate keys. -/
def jsonLookup (kvs : List (List Char × Json)) (key : List Char) : Option Json :=
  (kvs.reverse.find? (fun kv => kv.1 == key)).map (fun kv => kv.2)

/-- Does a parsed document expose the three required top-level fields of
`MathSolution`: a `problemSummary` string, a `steps` list and a
`finalAnswer` string? -/
def hasRequiredFieldsB (j : Json) : Bool :=
  match j with
  | .obj kvs =>
    (match jsonLookup kvs (("problemSummary" : String).toList) with
     | some (.str _) => true
     | _ => false) &&
    (match jsonLookup kvs (("steps" : String).toList) with
     | some (.arr _) => true
     | _ => false) &&
    (match jsonLookup kvs (("finalAnswer" : String).toList) with
     | some (.str _) => true
     | _ => false)
  | _ => false

/-- If strategy 1 produces a candidate, the chain selects it. -/
theorem selectCandidate_of_s1 (l c : List Char) (h : strategy1 l = some c) :
    selectCandidate l = some c := by
  unfold selectCandidate
  rw [h]

/-- If strategy 1 is empty and strategy 2 produces a candidate, the chain
selects it. -/
theorem selectCandidate_of_s2 (l c : List Char) (h1 : strategy1 l = none)
    (h : strategy2 l = some c) : selectCandidate l = some c := by
  unfold selectCandidate
  rw [h1, h]

/-- If strategies 1 and 2 are empty and strategy 3 produces a candidate,
the chain selects it. -/
theorem selectCandidate_of_s3 (l c : List Char) (h1 : strategy1 l = none)
    (h2 : strategy2 l = none) (h : strategy3 l = some c) :
    selectCandidate l = some c := by
  unfold selectCandidate
  rw [h1, h2, h]

/-- If strategies 1-3 are empty the chain returns whatever strategy 4
produces. -/
theorem selectCandidate_of_s4 (l : List Char) (h1 : strategy1 l = none)
    (h2 : strategy2 l = none) (h3 : strategy3 l = none) :
    selectCandidate l = strategy4 l := by
  unfold selectCandidate
  rw [h1, h2, h3]

/-- A successful extraction is exactly a successful parse of the cleaned
selected candidate. -/
theorem solveExtract_ok_iff (l : List Char) (v : Json) :
    solveExtract l = .ok v ↔
      ∃ c, selectCandidate l = some c ∧ jsonParse (cleanup c) = some v := by
  unfold solveExtract
  cases h : selectCandidate l with
  | none => simp
  | some c =>
    cases hp : jsonParse (cleanup c) with
    | none => simp [hp]
    | some w => simp [hp]

/-- A selected candidate that fails to parse yields the parse-failure
error. -/
theorem solveExtract_parseFail (l c : List Char) (h : selectCandidate l = some c)
    (hp : jsonParse (cleanup c) = none) : solveExtract l = .error .parseFailure := by
  simp [solveExtract, h, hp]

/-- An empty selection yields the not-found error. -/
theorem solveExtract_notFound (l : List Char) (h : selectCandidate l = none) :
    solveExtract l = .error .notFound := by
  unfold solveExtract
  rw [h]

/-- The accumulator of the streaming loop is the concatenation of all
chunks (empty chunks are skipped but contribute nothing anyway). -/
theorem streamFold_acc (chunks : List (List Char)) :
    ∀ acc logs, (List.foldl streamStep (acc, logs) chunks).1 = acc ++ chunks.flatten := by
  induction chunks with
  | nil => intro acc logs; simp
  | cons c t ih =>
    intro acc logs
    by_cases hc : c = []
    · subst hc
      simp [streamStep, ih]
    · simp [streamStep, hc, ih]

/-- The callback-argument list of the streaming loop only ever grows. -/
theorem streamFold_logs_mono (chunks : List (List Char)) :
    ∀ acc logs, ∃ t, (List.foldl streamStep (acc, logs) chunks).2 = logs ++ t := by
  induction chunks with
  | nil => intro acc logs; exact ⟨[], by simp⟩
  | cons c tl ih =>
    intro acc logs
    by_cases hc : c = []
    · simpa [streamStep, hc] using ih acc logs
    · obtain ⟨t, ht⟩ := ih (acc ++ c) (logs ++ [acc ++ c])
      refine ⟨[acc ++ c] ++ t, ?_⟩
      have hstep : streamStep (acc, logs) c = (acc ++ c, logs ++ [acc ++ c]) := by
        simp [streamStep, hc]
      simp only [List.foldl_cons, hstep]
      rw [ht]
      simp

/-- The backward walk can only answer at a `'\x7b'` character. -/
theorem backScanAux_none (m : List Char) :
    ∀ pos bal, (∀ x ∈ m, x ≠ '{') → backScanAux m pos bal = none := by
  induction m with
  | nil => intro pos bal _; rfl
  | cons c rest ih =>
    intro pos bal h
    have hc : c ≠ '{' := h c (List.mem_cons_self c rest)
    have hrest : ∀ x ∈ rest, x ≠ '{' := fun x hx => h x (List.mem_cons_of_mem c hx)
    unfold backScanAux
    by_cases hcl : c = '}'
    · simp [hcl, ih _ _ hrest]
    · simp [hcl, hc, ih _ _ hrest]

/-- Searching for `['\x7b']` in brace-free text finds nothing. -/
theorem findSub_brace_none (l : List Char) (h : ∀ x ∈ l, x ≠ '{') :
    findSub ['{'] l = none := by
  induction l with
  | nil => rfl
  | cons c t ih =>
    have hc : c ≠ '{' := h c (List.mem_cons_self c t)
    have ht : ∀ x ∈ t, x ≠ '{' := fun x hx => h x (List.mem_cons_of_mem c hx)
    unfold findSub
    have hpr : (['{'] : List Char).isPrefixOf (c :: t) = false := by
      simp [List.isPrefixOf]
      exact fun hq => absurd hq.symm hc
    rw [hpr]
    simp [ih ht]

/-- `noBracesB` unpacked. -/
theorem noBracesB_spec (l : List Char) (h : noBracesB l = true) :
    ∀ x ∈ l, x ≠ '{' ∧ x ≠ '}' := by
  intro x hx
  have := List.all_eq_true.mp h x hx
  constructor
  · intro he; subst he; simp at this
  · intro he; subst he; simp at this

/-- On brace-free text strategy 1 produces nothing: the backward walk
never finds an opening brace. -/
theorem strategy1_none_of_noBraces (l : List Char) (h : noBracesB l = true) :
    strategy1 l = none := by
  have hl : ∀ x ∈ l, x ≠ '{' := fun x hx => (noBracesB_spec l h x hx).1
  unfold strategy1
  cases ha : anchorIndex l with
  | none => rfl
  | some i =>
    have hb : backScan l i = none := by
      unfold backScan
      apply backScanAux_none
      intro x hx
      exact hl x (List.mem_reverse.mp hx |> List.mem_of_mem_take)
    simp [hb]

/-- On brace-free text strategy 4 produces nothing: there is no first
opening brace. -/
theorem strategy4_none_of_noBraces (l : List Char) (h : noBracesB l = true) :
    strategy4 l = none := by
  have hl : ∀ x ∈ l, x ≠ '{' := fun x hx => (noBracesB_spec l h x hx).1
  unfold strategy4 firstIdxOf
  rw [findSub_brace_none l hl]

/-- Unfolding of one forward-scan step. -/
theorem fwdScanAux_cons (c : Char) (rest : List Char) (pos : Nat) (bal : Int) :
    fwdScanAux (c :: rest) pos bal =
      (if c = '}' then
        (if (if c = '{' then bal + 1 else bal) - 1 = 0 then some pos
         else fwdScanAux rest (pos + 1) ((if c = '{' then bal + 1 else bal) - 1))
       else fwdScanAux rest (pos + 1) (if c = '{' then bal + 1 else bal)) := rfl

/-- Unfolding of one backward-scan step. -/
theorem backScanAux_cons (c : Char) (rest : List Char) (pos : Nat) (bal : Nat) :
    backScanAux (c :: rest) pos bal =
      (if c = '}' then backScanAux rest (pos - 1) (bal + 1)
       else if c = '{' then
         (if bal = 0 then some pos else backScanAux rest (pos - 1) (bal - 1))
       else backScanAux rest (pos - 1) bal) := rfl

/-- `braceDelta` at an opening brace. -/
theorem braceDelta_open : braceDelta '{' = 1 := by decide

/-- `braceDelta` at a closing brace. -/
theorem braceDelta_close : braceDelta '}' = -1 := by decide

/-- `braceDelta` elsewhere. -/
theorem braceDelta_other (c : Char) (h1 : c ≠ '{') (h2 : c ≠ '}') : braceDelta c = 0 := by
  unfold braceDelta
  rw [if_neg h1, if_neg h2]

/-- Completeness of the forward scan: on a span whose remaining part `s`
keeps the running balance positive strictly inside and closes it exactly
at its end, the scan stops at the last character of `s`, whatever
follows. -/
theorem fwdScanAux_complete (s : List Char) :
    ∀ (r : List Char) (pos : Nat) (bal : Int),
    s ≠ [] →
    bal + braceBal s = 0 →
    (∀ i, i < s.length → 1 ≤ bal + braceBal (s.take i)) →
    fwdScanAux (s ++ r) pos bal = some (pos + s.length - 1) := by
  induction s with
  | nil => intro r pos bal h _ _; exact absurd rfl h
  | cons c s' ih =>
    intro r pos bal _ hz hpos
    by_cases hs' : s' = []
    · subst hs'
      have hb : 1 ≤ bal := by simpa [braceBal] using hpos 0 (by simp)
      have hc : braceDelta c = -bal := by
        simp only [braceBal] at hz
        omega
      have hcj : c = '}' ∧ bal = 1 := by
        by_cases h1 : c = '{'
        · rw [h1, braceDelta_open] at hc; omega
        · by_cases h2 : c = '}'
          · refine ⟨h2, ?_⟩
            rw [h2, braceDelta_close] at hc; omega
          · rw [braceDelta_other c h1 h2] at hc; omega
      obtain ⟨hcq, hbq⟩ := hcj
      subst hcq hbq
      simp only [List.cons_append, List.nil_append, fwdScanAux_cons]
      simp
    · have hlen : 1 < (c :: s').length := by
        cases s' with
        | nil => exact absurd rfl hs'
        | cons _ _ => simp
      have h1le : 1 ≤ bal + braceDelta c := by
        have := hpos 1 hlen
        simpa [braceBal] using this
      have hz' : (bal + braceDelta c) + braceBal s' = 0 := by
        simp only [braceBal] at hz
        omega
      have hpos' : ∀ i, i < s'.length → 1 ≤ (bal + braceDelta c) + braceBal (s'.take i) := by
        intro i hi
        have := hpos (i + 1) (by simpa using Nat.succ_lt_succ hi)
        simpa [List.take_succ_cons, braceBal, add_assoc] using this
      have hrec := ih r (pos + 1) (bal + braceDelta c) hs' hz' hpos'
      have hgoal : pos + 1 + s'.length - 1 = pos + (c :: s').length - 1 := by
        simp only [List.length_cons]
        omega
      rw [List.cons_append, fwdScanAux_cons]
      by_cases h1 : c = '{'
      · rw [if_neg (by rw [h1]; decide), if_pos h1] at *
        rw [h1, braceDelta_open] at hrec
        rw [hrec, hgoal]
      · by_cases h2 : c = '}'
        · rw [if_pos h2, if_neg h1]
          rw [h2, braceDelta_close] at h1le hrec
          have hne : ¬(bal - 1 = 0) := by omega
          rw [if_neg hne]
          have : bal + -1 = bal - 1 := by omega
          rw [this] at hrec
          rw [hrec, hgoal]
        · rw [if_neg h2, if_neg h1]
          rw [braceDelta_other c h1 h2] at hrec
          simpa [hgoal] using hrec

/-- Unfolding of `dCount` over a cons. -/
theorem dCount_cons (c : Char) (x : List Char) :
    dCount (c :: x) = (if c = '}' then 1 else if c = '{' then -1 else 0) + dCount x := rfl

/-- Completeness of the backward scan: scanning the reversed prefix `m`
(whose final element is the object's opening brace at text position
`pos0`), with the stated balance conditions the scan stops exactly there,
whatever older text follows in the scanning order. -/
theorem backScanAux_complete (m : List Char) :
    ∀ (r : List Char) (pos0 : Nat) (bal : Nat),
    m ≠ [] →
    m.getLast? = some '{' →
    ((bal : Int) + dCount (m.take (m.length - 1)) = 0) →
    (∀ i, i < m.length - 1 → m.get? i = some '{' → (bal : Int) + dCount (m.take i) ≠ 0) →
    backScanAux (m ++ r) (pos0 + (m.length - 1)) bal = some pos0 := by
  induction m with
  | nil => intro r pos0 bal h _ _ _; exact absurd rfl h
  | cons c m' ih =>
    intro r pos0 bal _ hlast hz hpos
    by_cases hm' : m' = []
    · subst hm'
      have hc : c = '{' := by simpa using hlast
      have hb : bal = 0 := by
        simp [dCount] at hz
        exact_mod_cast hz
      subst hc hb
      simp [backScanAux_cons]
    · have hm'len : 1 ≤ m'.length := List.length_pos.mpr hm'
      obtain ⟨n, hn⟩ : ∃ n, m'.length = n + 1 := ⟨m'.length - 1, by omega⟩
      have hlast' : m'.getLast? = some '{' := by
        cases m' with
        | nil => exact absurd rfl hm'
        | cons b l => simpa [List.getLast?_cons_cons] using hlast
      have hlen1 : (c :: m').length - 1 = m'.length := by simp
      have htake : (c :: m').take ((c :: m').length - 1) = c :: m'.take n := by
        rw [hlen1, hn, List.take_succ_cons]
      have hzc : (bal : Int) +
          ((if c = '}' then 1 else if c = '{' then -1 else 0) + dCount (m'.take n)) = 0 := by
        rw [htake, dCount_cons] at hz
        omega
      have hn' : m'.length - 1 = n := by omega
      have hposstep : ∀ i, i < m'.length - 1 → m'.get? i = some '{' →
          (bal : Int) + ((if c = '}' then 1 else if c = '{' then -1 else 0) +
            dCount (m'.take i)) ≠ 0 := by
        intro i hi hg
        have hi' : i + 1 < (c :: m').length - 1 := by simp; omega
        have hg' : (c :: m').get? (i + 1) = some '{' := by simpa using hg
        have := hpos (i + 1) hi' hg'
        rw [List.take_succ_cons, dCount_cons] at this
        omega
      have hposeq : pos0 + ((c :: m').length - 1) = (pos0 + (m'.length - 1)) + 1 := by
        simp; omega
      rw [List.cons_append, backScanAux_cons, hposeq]
      by_cases h2 : c = '}'
      · rw [if_pos h2]
        have hz' : ((bal + 1 : Nat) : Int) + dCount (m'.take (m'.length - 1)) = 0 := by
          rw [hn']
          rw [h2] at hzc
          push_cast
          simp at hzc
          omega
        have hpos' : ∀ i, i < m'.length - 1 → m'.get? i = some '{' →
            ((bal + 1 : Nat) : Int) + dCount (m'.take i) ≠ 0 := by
          intro i hi hg
          have := hposstep i hi hg
          rw [h2] at this
          push_cast
          simp at this
          omega
        have := ih r pos0 (bal + 1) hm' hlast' hz' hpos'
        simpa using this
      · by_cases h1 : c = '{'
        · rw [if_neg h2, if_pos h1]
          have hbne : ¬(bal = 0) := by
            have h0 : (0 : Nat) < (c :: m').length - 1 := by simp; omega
            have hg : (c :: m').get? 0 = some '{' := by simp [h1]
            have := hpos 0 h0 hg
            simp [dCount] at this
            exact_mod_cast this
          rw [if_neg hbne]
          have hb1 : 1 ≤ bal := Nat.one_le_iff_ne_zero.mpr hbne
          have hz' : ((bal - 1 : Nat) : Int) + dCount (m'.take (m'.length - 1)) = 0 := by
            rw [hn', Nat.cast_sub hb1]
            rw [h1] at hzc
            simp at hzc
            omega
          have hpos' : ∀ i, i < m'.length - 1 → m'.get? i = some '{' →
              ((bal - 1 : Nat) : Int) + dCount (m'.take i) ≠ 0 := by
            intro i hi hg
            have := hposstep i hi hg
            rw [h1] at this
            rw [Nat.cast_sub hb1]
            simp at this
            omega
          have := ih r pos0 (bal - 1) hm' hlast' hz' hpos'
          simpa using this
        · rw [if_neg h2, if_neg h1]
          have hz' : (bal : Int) + dCount (m'.take (m'.length - 1)) = 0 := by
            rw [hn']
            rw [if_neg h2, if_neg h1] at hzc
            omega
          have hpos' : ∀ i, i < m'.length - 1 → m'.get? i = some '{' →
              (bal : Int) + dCount (m'.take i) ≠ 0 := by
            intro i hi hg
            have := hposstep i hi hg
            rw [if_neg h2, if_neg h1] at this
            omega
          have := ih r pos0 bal hm' hlast' hz' hpos'
          simpa using this

/-- A well-nested span starts with an opening brace. -/
theorem wellNestedB_head (l : List Char) (h : wellNestedB l = true) :
    l.head? = some '{' := by
  unfold wellNestedB at h
  simp only [Bool.and_eq_true, beq_iff_eq] at h
  exact h.1.1

/-- A well-nested span has total brace balance zero. -/
theorem wellNestedB_bal (l : List Char) (h : wellNestedB l = true) :
    braceBal l = 0 := by
  unfold wellNestedB at h
  simp only [Bool.and_eq_true, beq_iff_eq] at h
  exact h.1.2

/-- Inside a well-nested span every proper non-empty prefix keeps a
positive balance. -/
theorem wellNestedB_posPre (l : List Char) (h : wellNestedB l = true) :
    ∀ i, i < l.length → i ≠ 0 → 1 ≤ braceBal (l.take i) := by
  intro i hi h0
  unfold wellNestedB at h
  simp only [Bool.and_eq_true] at h
  have := List.all_eq_true.mp h.2 i (List.mem_range.mpr hi)
  simp only [Bool.or_eq_true, beq_iff_eq, decide_eq_true_eq] at this
  rcases this with h' | h'
  · exact absurd h' h0
  · exact h'

/-- The backward-scan condition pins the final element to `'\x7b'`. -/
theorem backCondB_getLast (m : List Char) (h : backCondB m = true) :
    m.getLast? = some '{' := by
  unfold backCondB at h
  simp only [Bool.and_eq_true, beq_iff_eq] at h
  exact h.1.1

/-- The backward-scan condition makes the balance before the final element
zero. -/
theorem backCondB_zero (m : List Char) (h : backCondB m = true) :
    dCount (m.take (m.length - 1)) = 0 := by
  unfold backCondB at h
  simp only [Bool.and_eq_true, beq_iff_eq] at h
  exact h.1.2

/-- The backward-scan condition forbids a zero balance at any earlier
opening brace. -/
theorem backCondB_ne (m : List Char) (h : backCondB m = true) :
    ∀ i, i < m.length - 1 → m.get? i = some '{' → dCount (m.take i) ≠ 0 := by
  intro i hi hg
  unfold backCondB at h
  simp only [Bool.and_eq_true] at h
  have := List.all_eq_true.mp h.2 i (List.mem_range.mpr hi)
  simp only [Bool.or_eq_true, Bool.not_eq_true', beq_eq_false_iff_ne,
    decide_eq_true_eq] at this
  rcases this with h' | h'
  · exact absurd hg h'
  · exact h'

/-- On `pre ++ obj ++ post` with `obj` well-nested, the forward scan from
the start of `obj` stops exactly at the last character of `obj`. -/
theorem fwdScan_exact (pre obj post : List Char) (h : wellNestedB obj = true) :
    fwdScan (pre ++ (obj ++ post)) pre.length = some (pre.length + obj.length - 1) := by
  unfold fwdScan
  rw [List.drop_left]
  obtain ⟨t, rfl⟩ : ∃ t, obj = '{' :: t := by
    cases obj with
    | nil => simp [wellNestedB] at h
    | cons a t =>
      have := wellNestedB_head _ h
      simp only [List.head?_cons, Option.some.injEq] at this
      subst this
      exact ⟨t, rfl⟩
  have hbal : braceBal ('{' :: t) = 0 := wellNestedB_bal _ h
  have ht : t ≠ [] := by
    intro he
    subst he
    simp [braceBal, braceDelta_open] at hbal
  rw [List.cons_append, fwdScanAux_cons]
  rw [if_neg (show ('{' : Char) ≠ '}' by decide), if_pos rfl]
  have hz' : ((0 : Int) + 1) + braceBal t = 0 := by
    simp only [braceBal, braceDelta_open] at hbal
    omega
  have hpos' : ∀ i, i < t.length → 1 ≤ ((0 : Int) + 1) + braceBal (t.take i) := by
    intro i hi
    have := wellNestedB_posPre _ h (i + 1) (by simp; omega) (by omega)
    simpa [List.take_succ_cons, braceBal, braceDelta_open] using this
  rw [fwdScanAux_complete t post (pre.length + 1) ((0 : Int) + 1) ht hz' hpos']
  congr 1
  simp only [List.length_cons]
  omega

/-- On `pre ++ obj ++ post` with the anchor at offset `k` inside `obj` and
the backward-scan condition met on the reversed anchor prefix, the
backward scan stops exactly at the start of `obj`. -/
theorem backScan_exact (pre obj post : List Char) (k : Nat)
    (hk : k < obj.length)
    (hb : backCondB ((obj.take (k + 1)).reverse) = true) :
    backScan (pre ++ (obj ++ post)) (pre.length + k) = some pre.length := by
  unfold backScan
  have htake : (pre ++ (obj ++ post)).take (pre.length + k + 1) = pre ++ obj.take (k + 1) := by
    rw [List.take_append_eq_append_take]
    congr 1
    · exact List.take_of_length_le (by omega)
    · have : pre.length + k + 1 - pre.length = k + 1 := by omega
      rw [this]
      exact List.take_append_of_le_length (by omega)
  rw [htake, List.reverse_append]
  have hglast := backCondB_getLast _ hb
  have hm : (obj.take (k + 1)).reverse ≠ [] := by
    intro he
    rw [he] at hglast
    simp at hglast
  have hmlen : ((obj.take (k + 1)).reverse).length = k + 1 := by
    simp only [List.length_reverse, List.length_take]
    omega
  have hz : ((0 : Nat) : Int) +
      dCount (((obj.take (k + 1)).reverse).take (((obj.take (k + 1)).reverse).length - 1)) = 0 := by
    have := backCondB_zero _ hb
    simpa using this
  have hne : ∀ i, i < ((obj.take (k + 1)).reverse).length - 1 →
      ((obj.take (k + 1)).reverse).get? i = some '{' →
      ((0 : Nat) : Int) + dCount (((obj.take (k + 1)).reverse).take i) ≠ 0 := by
    intro i hi hg
    have := backCondB_ne _ hb i hi hg
    simpa using this
  have := backScanAux_complete ((obj.take (k + 1)).reverse) pre.reverse pre.length 0
    hm hglast hz hne
  rw [hmlen] at this
  simpa using this

/-- Exactness of strategy 1: with the first anchor occurrence at offset
`k` inside the well-nested span `obj` and the backward condition met,
strategy 1 recovers exactly `obj`, byte for byte, whatever text comes
before or after. -/
theorem strategy1_exact (pre obj post : List Char) (k : Nat)
    (hk : k < obj.length)
    (ha : anchorIndex (pre ++ (obj ++ post)) = some (pre.length + k))
    (hwn : wellNestedB obj = true)
    (hb : backCondB ((obj.take (k + 1)).reverse) = true) :
    strategy1 (pre ++ (obj ++ post)) = some obj := by
  have h1 := backScan_exact pre obj post k hk hb
  have h2 := fwdScan_exact pre obj post hwn
  unfold strategy1
  rw [ha]
  simp only [h1, h2]
  rw [List.drop_left]
  have harith : pre.length + obj.length - 1 + 1 - pre.length = obj.length := by omega
  rw [harith, List.take_left]

/-- `braceBal` is additive over append. -/
theorem braceBal_append (a b : List Char) :
    braceBal (a ++ b) = braceBal a + braceBal b := by
  induction a with
  | nil => simp [braceBal]
  | cons c t ih => simp [braceBal, ih, add_assoc]

/-- A well-nested span ends with a closing brace. -/
theorem wellNestedB_getLast (l : List Char) (h : wellNestedB l = true) :
    l.getLast? = some '}' := by
  have hh := wellNestedB_head l h
  have hne : l ≠ [] := by
    intro he
    rw [he] at hh
    simp at hh
  have hbal := wellNestedB_bal l h
  have hlen2 : 2 ≤ l.length := by
    by_contra hlt
    have h1 : 1 ≤ l.length := List.length_pos.mpr hne
    have : l.length = 1 := by omega
    obtain ⟨c, rfl⟩ : ∃ c, l = [c] := List.length_eq_one.mp this
    simp only [List.head?_cons, Option.some.injEq] at hh
    subst hh
    simp [braceBal, braceDelta_open] at hbal
  have hpos := wellNestedB_posPre l h (l.length - 1) (by omega) (by omega)
  have hsplit : l.dropLast ++ [l.getLast hne] = l := List.dropLast_append_getLast hne
  have hdrop : l.dropLast = l.take (l.length - 1) := by
    rw [List.dropLast_eq_take]
  have hbb : braceBal l = braceBal (l.take (l.length - 1)) + braceDelta (l.getLast hne) := by
    conv_lhs => rw [← hsplit]
    rw [braceBal_append, hdrop]
    simp [braceBal]
  have hle : braceDelta (l.getLast hne) ≤ -1 := by omega
  have hlast : l.getLast hne = '}' := by
    by_cases h1 : l.getLast hne = '{'
    · rw [h1, braceDelta_open] at hle; omega
    · by_cases h2 : l.getLast hne = '}'
      · exact h2
      · rw [braceDelta_other _ h1 h2] at hle; omega
  rw [List.getLast?_eq_getLast l hne, hlast]

/-- A pattern whose head differs from the target's head is not a prefix of
it. -/
theorem notPrefix_head (c0 : Char) (pt : List Char) (c : Char) (t : List Char)
    (hne : c0 ≠ c) : (c0 :: pt).isPrefixOf (c :: t) = false := by
  by_contra hcon
  rw [Bool.not_eq_false] at hcon
  obtain ⟨s, hs⟩ := List.isPrefixOf_iff_prefix.mp hcon
  rw [List.cons_append] at hs
  exact hne (List.cons.injEq _ _ _ _ ▸ hs).1

/-- The cleanup step is the identity on a candidate that starts with an
opening brace and ends with a closing brace: nothing to trim, no fence
markers to strip. -/
theorem cleanup_brace (l : List Char) (h1 : l.head? = some '{')
    (h2 : l.getLast? = some '}') : cleanup l = l := by
  obtain ⟨t, rfl⟩ : ∃ t, l = '{' :: t := by
    cases l with
    | nil => simp at h1
    | cons a t =>
      simp only [List.head?_cons, Option.some.injEq] at h1
      subst h1
      exact ⟨t, rfl⟩
  have hrev : ('{' :: t).reverse.head? = some '}' := by
    rw [List.head?_reverse]
    exact h2
  obtain ⟨rt, hrt⟩ : ∃ rt, ('{' :: t).reverse = '}' :: rt := by
    cases hr : ('{' :: t).reverse with
    | nil => rw [hr] at hrev; simp at hrev
    | cons a rt =>
      rw [hr] at hrev
      simp only [List.head?_cons, Option.some.injEq] at hrev
      subst hrev
      exact ⟨rt, rfl⟩
  have htrim : trimList ('{' :: t) = '{' :: t := by
    unfold trimList
    rw [List.dropWhile_cons]
    have : jsWs '{' = false := by decide
    rw [this]
    simp only [Bool.false_eq_true, if_false]
    rw [hrt, List.dropWhile_cons]
    have : jsWs '}' = false := by decide
    rw [this]
    simp only [Bool.false_eq_true, if_false]
    rw [← hrt, List.reverse_reverse]
  have hjsonTag : fenceJsonTag = '`' :: ("``json" : String).toList := by decide
  have hticks : fenceTicks = '`' :: ("``" : String).toList := by decide
  have hp1 : fenceJsonTag.isPrefixOf ('{' :: t) = false := by
    rw [hjsonTag]
    exact notPrefix_head _ _ _ _ (by decide)
  have hp2 : fenceTicks.isPrefixOf ('{' :: t) = false := by
    rw [hticks]
    exact notPrefix_head _ _ _ _ (by decide)
  have hp3 : fenceTicks.isPrefixOf (('{' :: t).reverse) = false := by
    rw [hticks, hrt]
    exact notPrefix_head _ _ _ _ (by decide)
  unfold cleanup
  rw [htrim]
  simp only [hp1, Bool.false_eq_true, if_false, hp2, hp3]

/-- A nonempty pattern found by `findSub` is found at an index inside the
text. -/
theorem findSub_lt_length (c0 : Char) (pt : List Char) :
    ∀ (l : List Char) (i : Nat), findSub (c0 :: pt) l = some i → i < l.length := by
  intro l
  induction l with
  | nil =>
    intro i h
    unfold findSub at h
    have : (c0 :: pt).isPrefixOf ([] : List Char) = false := rfl
    rw [this] at h
    simp at h
  | cons c t ih =>
    intro i h
    unfold findSub at h
    split at h
    · cases h
      simp
    · obtain ⟨j, hj, hji⟩ := Option.map_eq_some'.mp h
      have := ih j hj
      simp only [List.length_cons]
      omega

/-- Strategy 4 when the last closing brace sits before the first opening
brace: JS `substring` swaps the endpoints, so the candidate is the text
strictly between the two positions; when that gap is empty the candidate
is falsy and strategy 4 yields nothing. -/
theorem strategy4_swap (l : List Char) (s e : Nat)
    (hf : firstIdxOf '{' l = some s) (hl : lastIdxOf '}' l = some e)
    (he : e < s) :
    (e + 1 < s → strategy4 l = some ((l.drop (e + 1)).take (s - (e + 1)))) ∧
    (e + 1 = s → strategy4 l = none) := by
  have hs : s < l.length := by
    unfold firstIdxOf at hf
    exact findSub_lt_length '{' [] l s hf
  constructor
  · intro hlt
    unfold strategy4
    simp only [hf, hl]
    have hmin : min s (e + 1) = e + 1 := by omega
    have hmax : max s (e + 1) = s := by omega
    rw [hmin, hmax]
    have hne : (l.drop (e + 1)).take (s - (e + 1)) ≠ [] := by
      intro hemp
      have := congrArg List.length hemp
      rw [List.length_take, List.length_drop] at this
      simp at this
      omega
    rw [if_neg hne]
  · intro heq
    unfold strategy4
    simp only [hf, hl]
    have hmin : min s (e + 1) = s := by omega
    have hmax : max s (e + 1) = s := by omega
    rw [hmin, hmax]
    simp

/-- A syntactically valid JSON object whose string value contains a
closing brace: `\x7b"problemSummary": "x\x7d"\x7d`. -/
def c1Text : List Char := ("\x7b\"problemSummary\": \"x\x7d\"\x7d" : String).toList

/-- The span strategy 1 actually selects on `c1Text`: cut short at the
brace inside the string literal. -/
def c1Bad : List Char := ("\x7b\"problemSummary\": \"x\x7d" : String).toList

/-- C1 counterexample: `c1Text` is a syntactically valid JSON object
containing the value-shaped anchor, yet strategy 1 selects a strictly
shorter span than the object, because the forward balance walk counts the
brace inside the string literal.  The claim's byte-exact guarantee fails
as stated. -/
theorem C1_counterexample :
    (jsonParse c1Text).isSome = true ∧
    matchesAnchorAt (c1Text.drop 1) = true ∧
    strategy1 c1Text = some c1Bad ∧
    c1Bad ≠ c1Text := by
  refine ⟨by rfl, by rfl, by rfl, by decide⟩

/-- C1 (amended): for text `pre ++ obj ++ post` where the span `obj` is
brace-well-nested (in particular no string literal inside it contributes a
brace), the first value-shaped anchor occurrence sits at offset `k` inside
`obj`, and the backward-scan side condition holds on the reversed anchor
prefix, strategy 1 selects exactly `obj`, byte-exact, regardless of what
precedes (decoy schema objects included) or follows; the chain then
returns that candidate. -/
theorem C1_amended_exact (pre obj post : List Char) (k : Nat)
    (hk : k < obj.length)
    (ha : anchorIndex (pre ++ (obj ++ post)) = some (pre.length + k))
    (hwn : wellNestedB obj = true)
    (hb : backCondB ((obj.take (k + 1)).reverse) = true) :
    strategy1 (pre ++ (obj ++ post)) = some obj ∧
    selectCandidate (pre ++ (obj ++ post)) = some obj := by
  have h := strategy1_exact pre obj post k hk ha hwn hb
  exact ⟨h, selectCandidate_of_s1 _ _ h⟩

/-- Prefix for the C1 witness: a decoy schema dump where the key is
followed by an opening brace. -/
def c1wPre : List Char :=
  ("schema \x7b\"problemSummary\": \x7b\"type\": \"STRING\"\x7d\x7d data: " : String).toList

/-- The data object for the C1 witness. -/
def c1wObj : List Char :=
  ("\x7b\"problemSummary\": \"ok\", \"steps\": [], \"finalAnswer\": \"42\"\x7d" : String).toList

/-- Trailing prose for the C1 witness. -/
def c1wPost : List Char := (" trailing" : String).toList

set_option maxRecDepth 16384 in
/-- C1 witness: the amended exactness theorem applied to a concrete text
with a decoy schema prefix. -/
theorem C1_witness :
    strategy1 (c1wPre ++ (c1wObj ++ c1wPost)) = some c1wObj ∧
    selectCandidate (c1wPre ++ (c1wObj ++ c1wPost)) = some c1wObj :=
  C1_amended_exact c1wPre c1wObj c1wPost 1 (by decide) (by rfl) (by rfl) (by rfl)

/-- Decoy prefix of the C2 counterexample. -/
def c2Pre : List Char := ("\x7b\"problemSummary\": \x7b\"t\": \"S\"\x7d\x7d " : String).toList

/-- True data object of the C2 counterexample; one of its string values
contains a closing brace. -/
def c2Obj : List Char :=
  ("\x7b\"a\": \"\x7d\", \"problemSummary\": \"actual\"\x7d" : String).toList

/-- The full C2 counterexample text. -/
def c2Text : List Char := c2Pre ++ c2Obj

set_option maxRecDepth 16384 in
/-- C2 counterexample: the text holds a decoy (`"problemSummary"` followed
by an opening brace) and later a syntactically valid true data object with
a string-valued `"problemSummary"`, yet the extractor throws the
parse-failure error instead of returning the data object's parse: the
brace inside the data object's `"a"` value derails the backward walk. -/
theorem C2_counterexample :
    c2Text = c2Pre ++ c2Obj ∧
    (decoyIndex c2Text).isSome = true ∧
    (jsonParse c2Obj).isSome = true ∧
    solveExtract c2Text = .error .parseFailure := by
  refine ⟨rfl, by rfl, by rfl, by rfl⟩

/-- C2 (amended): for text `pre ++ obj ++ post` whose prefix contains a
decoy (`"problemSummary"` followed by an opening brace) while the true
data object `obj` is brace-well-nested with the first value-shaped anchor
occurrence inside it and the backward side condition met, the extractor
returns exactly the parse of `obj`, not of the decoy. -/
theorem C2_amended_selects_data (pre obj post : List Char) (k : Nat) (v : Json)
    (hdecoy : (decoyIndex pre).isSome = true)
    (hk : k < obj.length)
    (ha : anchorIndex (pre ++ (obj ++ post)) = some (pre.length + k))
    (hwn : wellNestedB obj = true)
    (hb : backCondB ((obj.take (k + 1)).reverse) = true)
    (hv : jsonParse obj = some v) :
    solveExtract (pre ++ (obj ++ post)) = .ok v := by
  have hsel : selectCandidate (pre ++ (obj ++ post)) = some obj :=
    selectCandidate_of_s1 _ _ (strategy1_exact pre obj post k hk ha hwn hb)
  have hcl : cleanup obj = obj :=
    cleanup_brace obj (wellNestedB_head obj hwn) (wellNestedB_getLast obj hwn)
  unfold solveExtract
  rw [hsel]
  simp only [hcl, hv]

/-- Decoy prefix for the C2 witness. -/
def c2wPre : List Char :=
  ("note \x7b\"problemSummary\": \x7b\"type\": \"STRING\"\x7d\x7d then " : String).toList

/-- Data object for the C2 witness. -/
def c2wObj : List Char := ("\x7b\"problemSummary\": \"s\"\x7d" : String).toList

/-- Suffix for the C2 witness. -/
def c2wPost : List Char := (" end" : String).toList

/-- Parse of the C2 witness data object. -/
def c2wVal : Json :=
  Json.obj [(("\"problemSummary\"" : String).toList.drop 1 |>.dropLast, Json.str (("s" : String).toList))]

set_option maxRecDepth 16384 in
/-- C2 witness: the amended theorem applied to a concrete schema dump
followed by real data. -/
theorem C2_witness :
    solveExtract (c2wPre ++ (c2wObj ++ c2wPost)) = .ok c2wVal :=
  C2_amended_selects_data c2wPre c2wObj c2wPost 1 c2wVal (by rfl) (by decide)
    (by rfl) (by rfl) (by rfl) (by rfl)

/-- The key `problemSummary` as a character list. -/
def keyPS : List Char := ("problemSummary" : String).toList

/-- The key `steps` as a character list. -/
def keySteps : List Char := ("steps" : String).toList

/-- The key `finalAnswer` as a character list. -/
def keyFA : List Char := ("finalAnswer" : String).toList

/-- C3 counterexample text: a lone object with only the anchor field. -/
def c3Text : List Char := ("\x7b\"problemSummary\": \"only\"\x7d" : String).toList

/-- Parse of the C3 counterexample text. -/
def c3Val : Json := Json.obj [(keyPS, Json.str (("only" : String).toList))]

set_option maxRecDepth 16384 in
/-- C3 counterexample: extraction succeeds on `c3Text` and the returned
value is its parse, but that value does not expose the required `steps`
and `finalAnswer` fields — the source casts the parse result without any
runtime field check, so the output guarantee fails as stated. -/
theorem C3_counterexample :
    solveExtract c3Text = .ok c3Val ∧ hasRequiredFieldsB c3Val = false := by
  refine ⟨by rfl, by rfl⟩

/-- C3 (amended): whenever extraction succeeds, the returned value is the
JSON parse of the cleaned selected candidate; no runtime check guarantees
the required top-level fields, so the result exposes them only when the
model output does. -/
theorem C3_amended_parse_of_candidate (l : List Char) (v : Json)
    (h : solveExtract l = .ok v) :
    ∃ c, selectCandidate l = some c ∧ jsonParse (cleanup c) = some v :=
  (solveExtract_ok_iff l v).mp h

/-- C3 witness text: a complete document carrying all required fields. -/
def c3wText : List Char :=
  ("\x7b\"problemSummary\": \"w3\", \"steps\": [], \"finalAnswer\": \"a\"\x7d" : String).toList

/-- Parse of the C3 witness text. -/
def c3wVal : Json :=
  Json.obj [(keyPS, Json.str (("w3" : String).toList)), (keySteps, Json.arr []),
    (keyFA, Json.str (("a" : String).toList))]

set_option maxRecDepth 16384 in
/-- C3 witness: the amended theorem applied at a concrete successful
extraction. -/
theorem C3_witness :
    ∃ c, selectCandidate c3wText = some c ∧ jsonParse (cleanup c) = some c3wVal :=
  C3_amended_parse_of_candidate c3wText c3wVal (by rfl)

/-- C4: the extractor never signals success on a candidate that is not
syntactically valid JSON: every successful return is exactly a successful
parse of the cleaned selected candidate, and a selected candidate that
fails to parse always yields the thrown parse-failure error, never a
returned value. -/
theorem C4_success_iff_parse (l : List Char) :
    (∀ v, solveExtract l = .ok v ↔
      ∃ c, selectCandidate l = some c ∧ jsonParse (cleanup c) = some v) ∧
    (∀ c, selectCandidate l = some c → jsonParse (cleanup c) = none →
      solveExtract l = .error .parseFailure) :=
  ⟨fun v => solveExtract_ok_iff l v, fun c h hp => solveExtract_parseFail l c h hp⟩

/-- C4 witness text: a candidate is selected (strategy 4) but it is not
valid JSON. -/
def c4wText : List Char := ("\x7boops\x7d" : String).toList

set_option maxRecDepth 16384 in
/-- C4 witness: the theorem applied at a concrete unparsable candidate. -/
theorem C4_witness : solveExtract c4wText = .error .parseFailure :=
  (C4_success_iff_parse c4wText).2 c4wText (by rfl) (by rfl)

/-- C5: the four strategies are consulted strictly in order with
short-circuiting on the first non-empty candidate, no cross-candidate
scoring; in particular, whenever strategy 1 yields a candidate, the final
result is fully determined by that candidate alone (its cleaned parse, or
the parse-failure error), and strategies 2-4 are never consulted. -/
theorem C5_strategy_order (l : List Char) :
    (∀ c, strategy1 l = some c → selectCandidate l = some c ∧
      solveExtract l = (match jsonParse (cleanup c) with
        | some v => .ok v
        | none => .error .parseFailure)) ∧
    (∀ c, strategy1 l = none → strategy2 l = some c → selectCandidate l = some c) ∧
    (∀ c, strategy1 l = none → strategy2 l = none → strategy3 l = some c →
      selectCandidate l = some c) ∧
    (strategy1 l = none → strategy2 l = none → strategy3 l = none →
      selectCandidate l = strategy4 l) := by
  refine ⟨fun c h => ⟨selectCandidate_of_s1 l c h, ?_⟩,
    fun c h1 h => selectCandidate_of_s2 l c h1 h,
    fun c h1 h2 h => selectCandidate_of_s3 l c h1 h2 h,
    fun h1 h2 h3 => selectCandidate_of_s4 l h1 h2 h3⟩
  unfold solveExtract
  rw [selectCandidate_of_s1 l c h]

/-- C5 witness text: strategy 1 fires on it. -/
def c5wText : List Char := ("\x7b\"problemSummary\": \"w5\"\x7d" : String).toList

set_option maxRecDepth 16384 in
/-- C5 witness: the ordering theorem applied at a concrete text where
strategy 1 yields the whole object. -/
theorem C5_witness : selectCandidate c5wText = some c5wText :=
  ((C5_strategy_order c5wText).1 c5wText (by rfl)).1

/-- C6: whenever a candidate is located but fails to parse, the extractor
reports the parse-failure error, which is a distinct error kind from the
not-found error, and no further strategy is consulted (the result is
parse-failure regardless of what later strategies would yield). -/
theorem C6_parse_failure_distinct (l c : List Char)
    (h : selectCandidate l = some c) (hp : jsonParse (cleanup c) = none) :
    solveExtract l = .error .parseFailure ∧
    ExtractError.parseFailure ≠ ExtractError.notFound :=
  ⟨solveExtract_parseFail l c h hp, by decide⟩

/-- C6 witness text: the tag strategy locates a candidate that is not
JSON. -/
def c6wText : List Char := ("<json>deliberately not json</json>" : String).toList

/-- The candidate located inside the tags of `c6wText`. -/
def c6wCand : List Char := ("deliberately not json" : String).toList

set_option maxRecDepth 16384 in
/-- C6 witness: the theorem applied at a concrete malformed candidate. -/
theorem C6_witness :
    solveExtract c6wText = .error .parseFailure ∧
    ExtractError.parseFailure ≠ ExtractError.notFound :=
  C6_parse_failure_distinct c6wText c6wCand (by rfl) (by rfl)

/-- C7 counterexample text: the stream is cut off inside the data object,
after a complete-but-empty brace pair appeared in the reasoning prose. -/
def c7Text : List Char :=
  ("consider \x7b\x7d now <json>\x7b\"problemSummary\": \"a" : String).toList

set_option maxRecDepth 16384 in
/-- C7 counterexample: the located data candidate is truncated mid-object
(the anchor is present but the forward walk finds no balanced span), yet
the extractor neither reports not-found nor malformed-candidate: the naked
fallback picks the earlier `\x7b\x7d` from the reasoning text, which
parses, and an empty object is returned.  The "never returns a
partially-populated result object" guarantee fails as stated. -/
theorem C7_counterexample :
    (anchorIndex c7Text).isSome = true ∧
    strategy1 c7Text = none ∧
    solveExtract c7Text = .ok (Json.obj []) := by
  refine ⟨by rfl, by rfl, by rfl⟩

/-- C7 (amended): on every input the extractor either reports not-found
(no strategy located a candidate), or reports parse-failure (a candidate
was located but its cleaned text does not parse), or returns the complete
parse of the located candidate; it never returns a value that is not the
full parse of a syntactically valid JSON document — but that document may
be some other balanced span of the text (possibly lacking every required
field) rather than the truncated data object. -/
theorem C7_amended_trichotomy (l : List Char) :
    (selectCandidate l = none ∧ solveExtract l = .error .notFound) ∨
    (∃ c, selectCandidate l = some c ∧
      ((∃ v, jsonParse (cleanup c) = some v ∧ solveExtract l = .ok v) ∨
       (jsonParse (cleanup c) = none ∧ solveExtract l = .error .parseFailure))) := by
  cases hsel : selectCandidate l with
  | none => exact Or.inl ⟨rfl, solveExtract_notFound l hsel⟩
  | some c =>
    refine Or.inr ⟨c, rfl, ?_⟩
    cases hp : jsonParse (cleanup c) with
    | none => exact Or.inr ⟨rfl, solveExtract_parseFail l c hsel hp⟩
    | some v =>
      refine Or.inl ⟨v, rfl, ?_⟩
      unfold solveExtract
      rw [hsel]
      simp only [hp]

/-- C8 counterexample text: no brace anywhere, but a tagged candidate. -/
def c8Text : List Char := ("<json>true</json>" : String).toList

set_option maxRecDepth 16384 in
/-- C8 counterexample: a brace-free text on which the extractor does not
report extraction-not-found: the tag strategy produces the candidate
`true`, which parses, and a value is returned. -/
theorem C8_counterexample :
    noBracesB c8Text = true ∧ solveExtract c8Text = .ok (Json.bool true) := by
  refine ⟨by rfl, by rfl⟩

/-- C8 (amended): on brace-free text the brace-based strategies 1 and 4
produce nothing, and when the tag and fence strategies also produce
nothing the extractor reports the extraction-not-found error; the model is
total, so no fault outside the two defined error kinds is possible. -/
theorem C8_amended_noBraces (l : List Char) (h : noBracesB l = true) :
    strategy1 l = none ∧ strategy4 l = none ∧
    (strategy2 l = none → strategy3 l = none → solveExtract l = .error .notFound) := by
  have h1 := strategy1_none_of_noBraces l h
  have h4 := strategy4_none_of_noBraces l h
  refine ⟨h1, h4, fun h2 h3 => ?_⟩
  exact solveExtract_notFound l (by rw [selectCandidate_of_s4 l h1 h2 h3, h4])

/-- C8 witness text: plain prose, no braces, tags or fences. -/
def c8wText : List Char := ("hello there" : String).toList

set_option maxRecDepth 16384 in
/-- C8 witness: the amended theorem applied at concrete brace-free
prose. -/
theorem C8_witness : solveExtract c8wText = .error .notFound :=
  (C8_amended_noBraces c8wText (by rfl)).2.2 (by rfl) (by rfl)

/-- C9 counterexample: one received chunk whose text is empty: the
progress callback is not invoked at all for it, so "invoked at least once
per received chunk" fails as stated. -/
theorem C9_counterexample :
    streamLogs [([] : List Char)] = [] ∧ ([([] : List Char)]).length = 1 := by
  refine ⟨by rfl, by rfl⟩

/-- C9 (amended): for every received chunk bearing non-empty text the
progress callback is invoked with the full cumulative text accumulated so
far (whatever its content, JSON or not); chunks with empty text trigger no
invocation but also change nothing; and the invocations have no effect on
the final extraction result, which is computed from the final accumulated
text alone. -/
theorem C9_amended_callback (pre : List (List Char)) (c : List Char)
    (post : List (List Char)) (hc : c ≠ []) :
    (pre.flatten ++ c) ∈ streamLogs (pre ++ c :: post) ∧
    streamAcc (pre ++ c :: post) = (pre ++ c :: post).flatten ∧
    solveStream (pre ++ c :: post) = solveExtract ((pre ++ c :: post).flatten) := by
  have hacc : streamAcc (pre ++ c :: post) = (pre ++ c :: post).flatten := by
    unfold streamAcc streamRun
    simpa using streamFold_acc (pre ++ c :: post) [] []
  refine ⟨?_, hacc, ?_⟩
  · unfold streamLogs streamRun
    rw [List.foldl_append, List.foldl_cons]
    have hst1 : (List.foldl streamStep ([], []) pre).1 = pre.flatten := by
      simpa using streamFold_acc pre [] []
    have hstep : streamStep (List.foldl streamStep ([], []) pre) c =
        ((List.foldl streamStep ([], []) pre).1 ++ c,
         (List.foldl streamStep ([], []) pre).2 ++
           [(List.foldl streamStep ([], []) pre).1 ++ c]) := by
      unfold streamStep
      rw [if_neg hc]
    rw [hstep]
    obtain ⟨tl, htl⟩ := streamFold_logs_mono post
      ((List.foldl streamStep ([], []) pre).1 ++ c)
      ((List.foldl streamStep ([], []) pre).2 ++
        [(List.foldl streamStep ([], []) pre).1 ++ c])
    rw [htl, hst1]
    simp
  · unfold solveStream
    rw [hacc]

/-- First chunk of the C9 witness. -/
def c9wPre : List (List Char) := [("h" : String).toList]

/-- The non-empty chunk of the C9 witness. -/
def c9wChunk : List Char := ("i" : String).toList

/-- Trailing chunks of the C9 witness. -/
def c9wPost : List (List Char) := []

/-- C9 witness: the amended callback theorem applied at a concrete
two-chunk stream. -/
theorem C9_witness :
    (c9wPre.flatten ++ c9wChunk) ∈ streamLogs (c9wPre ++ c9wChunk :: c9wPost) ∧
    streamAcc (c9wPre ++ c9wChunk :: c9wPost) = (c9wPre ++ c9wChunk :: c9wPost).flatten ∧
    solveStream (c9wPre ++ c9wChunk :: c9wPost) =
      solveExtract ((c9wPre ++ c9wChunk :: c9wPost).flatten) :=
  C9_amended_callback c9wPre c9wChunk c9wPost (by decide)

/-- C10 counterexample text: a closing brace immediately followed by an
opening brace. -/
def c10Text : List Char := ("\x7d\x7b" : String).toList

/-- C10 counterexample: the text has a `'\x7b'` and a `'\x7d'` with the
last closing brace before the first opening brace, yet the swapped
substring is empty, so the fallback produces no candidate and the
extractor reports extraction-not-found — not the claimed malformed-
candidate error. -/
theorem C10_counterexample :
    firstIdxOf '{' c10Text = some 1 ∧
    lastIdxOf '}' c10Text = some 0 ∧
    solveExtract c10Text = .error .notFound := by
  refine ⟨by rfl, by rfl, by rfl⟩

/-- C10 (amended): when strategies 1-3 produce nothing and the last
closing brace sits before the first opening brace, the naked fallback
produces the text strictly between the two positions (the substring
endpoints are swapped); when that gap is non-empty a parse of it is
attempted and a parse failure is reported as malformed-candidate rather
than not-found, but when the braces are adjacent the candidate is empty
and the extractor reports extraction-not-found. -/
theorem C10_amended_swap (l : List Char) (s e : Nat)
    (h1 : strategy1 l = none) (h2 : strategy2 l = none) (h3 : strategy3 l = none)
    (hf : firstIdxOf '{' l = some s) (hl : lastIdxOf '}' l = some e) (he : e < s) :
    (e + 1 < s →
      selectCandidate l = some ((l.drop (e + 1)).take (s - (e + 1))) ∧
      (jsonParse (cleanup ((l.drop (e + 1)).take (s - (e + 1)))) = none →
        solveExtract l = .error .parseFailure)) ∧
    (e + 1 = s → solveExtract l = .error .notFound) := by
  have hsw := strategy4_swap l s e hf hl he
  have hch := selectCandidate_of_s4 l h1 h2 h3
  constructor
  · intro hlt
    have hsel : selectCandidate l = some ((l.drop (e + 1)).take (s - (e + 1))) := by
      rw [hch]
      exact hsw.1 hlt
    exact ⟨hsel, fun hp => solveExtract_parseFail l _ hsel hp⟩
  · intro heq
    exact solveExtract_notFound l (by rw [hch, hsw.2 heq])

/-- C10 witness text: one character sits between the last closing brace
and the first opening brace. -/
def c10wText : List Char := ("\x7dx\x7b" : String).toList

set_option maxRecDepth 16384 in
/-- C10 witness: the amended theorem applied at a concrete text where the
swapped candidate is the single character between the braces and fails to
parse. -/
theorem C10_witness :
    selectCandidate c10wText = some ((c10wText.drop 1).take 1) ∧
    solveExtract c10wText = .error .parseFailure := by
  have h := (C10_amended_swap c10wText 2 0 (by rfl) (by rfl) (by rfl) (by rfl)
    (by rfl) (by omega)).1 (by omega)
  exact ⟨h.1, h.2 (by rfl)⟩
